import Mathlib

/-!
# Verification of the Clorox PDF download-and-validate pipeline (`src/main.py`)

This file gives a shallow embedding, in Lean 4, of the functions of
`src/main.py` that the specification's claims are about:

* `extract_pdf_urls` — an operational model of `re.findall` for the fixed
  pattern `https?://[^\s]+?\.pdf\b` (left-to-right scan, non-overlapping
  matches, lazy `+?` quantifier, literal `.pdf`, word boundary `\b`).
  Python's `\s` and `\w` classes are Unicode-aware for `str` patterns; the
  model restricts them to their ASCII behaviour.
* `url_to_filename` — `urllib.parse.urlparse(url).path` followed by
  `os.path.basename`, forcing the `.pdf` suffix, `os.path.splitext`,
  `re.sub(r"[^a-zA-Z0-9_-]", "_", name)` and `str.lower()`.  `urlparse` is
  modelled for CPython ≥ 3.9 semantics (tab/CR/LF stripping, scheme
  detection, netloc splitting, fragment/query/params removal); authorities
  containing `[` or `]` (where CPython may raise `ValueError`) are modelled
  as the propagated-exception case `none`, as is CPython's NFKC validation
  of exotic non-ASCII authorities.  `os.path` is POSIX (`/` separator).
  `str.lower()` is modelled on ASCII, which is faithful here because every
  character reaching the `.lower()` call is ASCII (output of the
  character-class substitution, plus the literal extension).
* `download_pdf` — a state-transformer over an abstract file system
  (path ↦ bytes) and an abstract network (URL ↦ response).  A response is
  either a failure (connection error / non-2xx status raised by
  `raise_for_status`, i.e. a `requests.RequestException`) or a stream of
  chunks, possibly interrupted by a `RequestException` after yielding its
  chunks.  The uncaught-exception channel (`Except.error`) models
  exceptions that the function's `except requests.exceptions.RequestException`
  clause does NOT catch (e.g. `ValueError` from `urlparse`).  Directory
  creation (`os.makedirs`) has no observable effect in the file model.
* `validate_pdf_file` — over an abstract PDF parser (path ↦ outcome of
  `fitz.open`): either a raised structural error (`RuntimeError`) or a
  parsed document with a page count.
-/

namespace CloroxPdf

/-- `.pdf` as a character list (the literal extension used throughout `main.py`). -/
def pdfExt : List Char := ['.', 'p', 'd', 'f']

/-- Python's `\s` (whitespace class), restricted to its ASCII behaviour:
space, tab, newline, carriage return, vertical tab, form feed. -/
def pyIsSpace (c : Char) : Bool :=
  c = ' ' || c = '\t' || c = '\n' || c = '\r' || c = '\x0b' || c = '\x0c'

/-- Python's `\w` (word-character class), restricted to its ASCII behaviour:
letters, digits, underscore. -/
def pyIsWord (c : Char) : Bool :=
  c.isAlphanum || c = '_'

/-! ## URL extractor: `extract_pdf_urls` (src/main.py lines 9-18)

`re.findall(r"https?://[^\s]+?\.pdf\b", text)`. -/

/-- `https://` as a character list. -/
def schemeHttps : List Char := ['h', 't', 't', 'p', 's', ':', '/', '/']

/-- `http://` as a character list. -/
def schemeHttp : List Char := ['h', 't', 't', 'p', ':', '/', '/']

/-- The word-boundary assertion `\b` placed right after the final `f` of
`.pdf` (a word character): it holds iff the input ends there or the next
character is not a word character. -/
def boundaryAfter : List Char → Bool
  | [] => true
  | c :: _ => !(pyIsWord c)

/-- Match the `https?://` part of the pattern at the head of `l`.  The greedy
`s?` is deterministic here: `s` is consumed exactly when the text continues
with `s://` (consuming `s` and not consuming it can never both lead to a
match, since `s ≠ :`).  Returns the consumed prefix and the remainder. -/
def matchScheme (l : List Char) : Option (List Char × List Char) :=
  if l.take 8 = schemeHttps then some (schemeHttps, l.drop 8)
  else if l.take 7 = schemeHttp then some (schemeHttp, l.drop 7)
  else none

/-- Match `[^\s]+?\.pdf\b` at the head of `l`: the lazy `+?` consumes one
non-whitespace character at a time and after each character tries the
literal `.pdf` followed by the boundary check, extending on failure —
exactly the backtracking behaviour of the Python pattern.  Returns the
matched characters and the remainder. -/
def matchBodyAux : List Char → Option (List Char × List Char)
  | [] => none
  | c :: rest =>
    if pyIsSpace c then none
    else if rest.take 4 = pdfExt ∧ boundaryAfter (rest.drop 4) = true then
      some (c :: pdfExt, rest.drop 4)
    else
      match matchBodyAux rest with
      | some (m, r) => some (c :: m, r)
      | none => none

/-- Try to match the whole pattern `https?://[^\s]+?\.pdf\b` anchored at the
head of `l`; on success return the matched characters and the remainder. -/
def tryMatchAt (l : List Char) : Option (List Char × List Char) :=
  match matchScheme l with
  | none => none
  | some (p, r) =>
    match matchBodyAux r with
    | none => none
    | some (m, rest) => some (p ++ m, rest)

/-- The scan of `re.findall`: try the pattern at each position from left to
right; on a match, emit it and resume right after its end (matches are
non-overlapping); otherwise advance one character.  `fuel` is only a
structural-recursion bound; every step consumes at least one character, so
`fuel = l.length` is always sufficient. -/
def findAllAux : Nat → List Char → List (List Char)
  | 0, _ => []
  | _, [] => []
  | fuel + 1, c :: rest =>
    match tryMatchAt (c :: rest) with
    | some (m, r) => m :: findAllAux fuel r
    | none => findAllAux fuel rest

/-- `extract_pdf_urls` (src/main.py lines 9-18):
`re.findall(r"https?://[^\s]+?\.pdf\b", text)`. -/
def extract_pdf_urls (text : String) : List String :=
  (findAllAux text.data.length text.data).map fun l => ⟨l⟩

/-! ## Filename sanitizer: `url_to_filename` (src/main.py lines 35-54) -/

/-- Membership in CPython's `scheme_chars` (ASCII letters, digits, `+`, `-`, `.`). -/
def isSchemeChar (c : Char) : Bool :=
  decide ((65 ≤ c.toNat ∧ c.toNat ≤ 90) ∨ (97 ≤ c.toNat ∧ c.toNat ≤ 122) ∨
    (48 ≤ c.toNat ∧ c.toNat ≤ 57) ∨ c.toNat = 43 ∨ c.toNat = 45 ∨ c.toNat = 46)

/-- ASCII letter (CPython's `url[0].isascii() and url[0].isalpha()` check). -/
def isAsciiAlphaChar (c : Char) : Bool :=
  decide ((65 ≤ c.toNat ∧ c.toNat ≤ 90) ∨ (97 ≤ c.toNat ∧ c.toNat ≤ 122))

/-- The scheme-stripping step of `urlsplit`: if the first `:` occurs at a
positive index and everything before it is a valid scheme (ASCII letter
first, then scheme characters), drop the scheme and the `:`. -/
def stripScheme (l : List Char) : List Char :=
  let pre := l.takeWhile (fun c => c != ':')
  match pre with
  | [] => l
  | c :: _ =>
    if pre.length < l.length ∧ isAsciiAlphaChar c = true ∧ pre.all isSchemeChar = true
    then l.drop (pre.length + 1)
    else l

/-- The params-splitting step of `urlparse` (`_splitparams`): if the path
contains `;`, cut at the first `;` of the last `/`-separated segment (or of
the whole path when it has no `/`). -/
def splitParams (v : List Char) : List Char :=
  if v.contains ';' then
    if v.contains '/' then
      let seg := (v.reverse.takeWhile (fun c => c != '/')).reverse
      let pre := v.take (v.length - seg.length)
      if seg.contains ';' then pre ++ seg.takeWhile (fun c => c != ';') else v
    else v.takeWhile (fun c => c != ';')
  else v

/-- `urllib.parse.urlparse(url).path`.  Steps of CPython's
`urlsplit`/`urlparse`: remove tab/CR/LF; strip a valid scheme; if the rest
starts with `//`, split off the netloc (up to the first `/`, `?` or `#`);
drop the fragment (from the first `#`) and the query (from the first `?`);
split params.  `none` models a propagated `ValueError`/unmodelled exotic
authority: any netloc containing `[` or `]`. -/
def urlparse_path (url : String) : Option (List Char) :=
  let u0 := url.data.filter (fun c => decide (c ≠ '\t' ∧ c ≠ '\r' ∧ c ≠ '\n'))
  let u1 := stripScheme u0
  if u1.take 2 = ['/', '/'] then
    let rest := u1.drop 2
    let netloc := rest.takeWhile (fun c => decide (c ≠ '/' ∧ c ≠ '?' ∧ c ≠ '#'))
    if netloc.contains '[' || netloc.contains ']' then none
    else some (splitParams (((rest.drop netloc.length).takeWhile
      (fun c => c != '#')).takeWhile (fun c => c != '?')))
  else some (splitParams ((u1.takeWhile (fun c => c != '#')).takeWhile (fun c => c != '?')))

/-- `os.path.basename` (POSIX): everything after the last `/`. -/
def basename (p : List Char) : List Char :=
  (p.reverse.takeWhile (fun c => c != '/')).reverse

/-- `os.path.splitext` (POSIX), for inputs without `/` (it is only applied to
a basename here): split at the last `.`, except that dots leading the whole
name are part of the root (`splitext(".pdf") = (".pdf", "")`). -/
def splitext (p : List Char) : List Char × List Char :=
  let extLen := (p.reverse.takeWhile (fun c => c != '.')).length
  if extLen = p.length then (p, [])
  else
    let nameLen := p.length - extLen - 1
    if (p.take nameLen).all (fun c => c == '.') then (p, [])
    else (p.take nameLen, p.drop nameLen)

/-- One character of `re.sub(r"[^a-zA-Z0-9_-]", "_", name)`: keep ASCII
letters, digits, `_` (95) and `-` (45); replace everything else by `_`. -/
def sanitizeChar (c : Char) : Char :=
  if (65 ≤ c.toNat ∧ c.toNat ≤ 90) ∨ (97 ≤ c.toNat ∧ c.toNat ≤ 122) ∨
     (48 ≤ c.toNat ∧ c.toNat ≤ 57) ∨ c.toNat = 95 ∨ c.toNat = 45
  then c else '_'

/-- `str.lower()` on one character, restricted to ASCII (faithful at its one
call site, where every character is ASCII). -/
def pyLowerChar (c : Char) : Char :=
  if 65 ≤ c.toNat ∧ c.toNat ≤ 90 then Char.ofNat (c.toNat + 32) else c

/-- `url_to_filename` (src/main.py lines 35-54).  `none` models a propagated
`ValueError` from `urlparse` (the function itself catches nothing). -/
def url_to_filename (url : String) : Option String :=
  match urlparse_path url with
  | none => none
  | some p =>
    let filename := basename p
    let filename := if pdfExt.isSuffixOf filename then filename else filename ++ pdfExt
    let ne := splitext filename
    let sanitized_name := ne.1.map sanitizeChar
    some ⟨(sanitized_name ++ ne.2).map pyLowerChar⟩

/-! ## Downloader: `download_pdf` (src/main.py lines 58-98) -/

/-- The file system: a map from paths to file contents (byte lists). -/
def FileSys : Type := String → Option (List Nat)

/-- `check_file_exists` (src/main.py lines 142-143): `os.path.isfile`. -/
def check_file_exists (fs : FileSys) (system_path : String) : Bool :=
  (fs system_path).isSome

/-- `os.path.join` (POSIX) for two components: the second wins if absolute
(begins with `/`). -/
def pathJoin (d f : String) : String :=
  if f.data.take 1 = ['/'] then f else d ++ "/" ++ f

/-- Outcome of `requests.get(url, stream=True)` + `raise_for_status()` +
chunk iteration, as observed by `download_pdf`:
* `failure`: a `RequestException` raised before any body is consumed
  (connection error, timeout, or non-2xx status via `raise_for_status`);
* `stream chunks interrupted`: the body yields `chunks` (each a byte list;
  `iter_content` can yield empty chunks, which the code skips); if
  `interrupted` is true, a `RequestException` is raised by the iteration
  after those chunks were yielded (and written). -/
inductive NetResponse : Type where
  | failure : NetResponse
  | stream (chunks : List (List Nat)) (interrupted : Bool) : NetResponse

/-- The network: a map from URLs to responses. -/
def Network : Type := String → NetResponse

/-- The bytes `download_pdf` writes when the body yields `chunks`: every
non-empty chunk, concatenated (`if chunk: pdf_file.write(chunk)`). -/
def writtenBytes (chunks : List (List Nat)) : List Nat :=
  (chunks.filter (fun c => !c.isEmpty)).flatten

/-- How a `download_pdf` call that returned normally ended. -/
inductive DlOutcome : Type where
  | skipped : DlOutcome
  | downloaded : DlOutcome
  | failedCaught : DlOutcome
deriving DecidableEq

/-- Result of a `download_pdf` call that returned normally: the file system
after the call, the outcome, and whether a network request was issued. -/
structure DlResult : Type where
  fs : FileSys
  outcome : DlOutcome
  networkUsed : Bool

/-- `download_pdf` (src/main.py lines 58-98).  The `local_file_path`
parameter is immediately shadowed by the reassignment on line 71, exactly as
in the source.  `Except.error` is an exception NOT caught by the
`except requests.exceptions.RequestException` clause (a `ValueError` from
`urlparse` inside `url_to_filename`); `Except.ok` is a normal return. -/
def download_pdf (net : Network) (fs : FileSys) (pdf_url : String)
    ( local_file_path : String) : Except String DlResult :=
  match url_to_filename pdf_url with
  | none => Except.error "ValueError"
  | some filename =>
    let lfp := pathJoin "PDFs" filename
    if check_file_exists fs lfp then
      Except.ok ⟨fs, DlOutcome.skipped, false⟩
    else
      match net pdf_url with
      | NetResponse.failure => Except.ok ⟨fs, DlOutcome.failedCaught, true⟩
      | NetResponse.stream chunks interrupted =>
        let fs' : FileSys := fun p => if p = lfp then some (writtenBytes chunks) else fs p
        Except.ok ⟨fs', if interrupted then DlOutcome.failedCaught else DlOutcome.downloaded,
          true⟩

/-- The download loop of `main` (src/main.py lines 171-173): for each URL,
evaluate `url_to_filename(url)` (which may itself raise) and call
`download_pdf`; an uncaught exception aborts the loop, a caught one lets it
continue. -/
def processUrls (net : Network) : FileSys → List String → Except String FileSys
  | fs, [] => Except.ok fs
  | fs, u :: rest =>
    match url_to_filename u with
    | none => Except.error "ValueError"
    | some arg =>
      match download_pdf net fs u arg with
      | Except.error e => Except.error e
      | Except.ok r => processUrls net r.fs rest

/-! ## Validator: `validate_pdf_file` (src/main.py lines 102-118) -/

/-- Outcome of `fitz.open(file_path)`: either a raised structural error
(`RuntimeError`, caught by the function) or a parsed document with its
`page_count`. -/
inductive PdfParse : Type where
  | parseError : PdfParse
  | parsed (page_count : Nat) : PdfParse

/-- The PDF parser: a map from paths to parse outcomes. -/
def PdfEnv : Type := String → PdfParse

/-- `validate_pdf_file` (src/main.py lines 102-118).  The file system is
threaded through unchanged: `fitz.open` only reads.  Returns the boolean
verdict and the (unchanged) file system. -/
def validate_pdf_file (pdf : PdfEnv) (fs : FileSys) (file_path : String) :
    Bool × FileSys :=
  match pdf file_path with
  | PdfParse.parseError => (false, fs)
  | PdfParse.parsed n => if n = 0 then (false, fs) else (true, fs)

/-! ## Spec-side definitions (from the specification's words, for comparison) -/

/-- The spec's guaranteed output shape `^[a-z0-9_-]+\.pdf$`: one character of
the class (lowercase letter, digit, `_`, `-`). -/
def isSafeChar (c : Char) : Bool :=
  decide ((97 ≤ c.toNat ∧ c.toNat ≤ 122) ∨ (48 ≤ c.toNat ∧ c.toNat ≤ 57) ∨
    c.toNat = 95 ∨ c.toNat = 45)

/-- The spec's guaranteed filename shape: `s` matches `^[a-z0-9_-]+\.pdf$`
(a non-empty stem of safe characters followed by the literal `.pdf`). -/
def isSafePdfName (s : String) : Bool :=
  let stem := s.data.take (s.data.length - 4)
  decide (stem ≠ []) && stem.all isSafeChar &&
    decide (s.data.drop (s.data.length - 4) = pdfExt)

/-- All characters are non-whitespace (the `[^\s]+` part of the pattern). -/
def noWhitespace (l : List Char) : Bool :=
  l.all (fun c => !pyIsSpace c)

/-- `s` is one of the two scheme prefixes of the pattern. -/
def SchemeStr (s : List Char) : Prop :=
  s = schemeHttp ∨ s = schemeHttps

/-- Declarative statement that the pattern `https?://[^\s]+?\.pdf\b` has a
match of length `n` anchored at the head of `l`: `l` decomposes as a scheme
prefix, a non-empty run of non-whitespace characters, the literal `.pdf`,
and a remainder at which the word-boundary assertion holds. -/
def MatchHead (l : List Char) (n : Nat) : Prop :=
  ∃ sch body rest, SchemeStr sch ∧ body ≠ [] ∧ noWhitespace body = true ∧
    l = sch ++ body ++ pdfExt ++ rest ∧ boundaryAfter rest = true ∧
    n = sch.length + body.length + 4

/-- Declarative description of `re.findall` output, written from the spec's
words: starting at offset `i` of `t`, the output list is obtained by, at
each step, locating the first position at which the pattern matches, taking
the (lazy, hence shortest) match there, and resuming right after it; it ends
when no further position matches. -/
inductive FindAllRel (t : List Char) : Nat → List (List Char) → Prop where
  | nil (i : Nat) (hnone : ∀ j n, i ≤ j → ¬ MatchHead (t.drop j) n) :
      FindAllRel t i []
  | cons (i j n : Nat) (s : List Char) (rest : List (List Char))
      (hij : i ≤ j)
      (hm : MatchHead (t.drop j) n)
      (hfirst : ∀ j' n', i ≤ j' → j' < j → ¬ MatchHead (t.drop j') n')
      (hmin : ∀ n', MatchHead (t.drop j) n' → n ≤ n')
      (hs : s = (t.drop j).take n)
      (hrest : FindAllRel t (j + n) rest) :
      FindAllRel t i (s :: rest)

/-! ## Theorems about the downloader and validator -/

/-- C3: if a file already exists at `PDFs/<sanitized filename>` before
`download_pdf` runs, the call performs no network request, leaves the whole
file system (in particular the existing file's bytes) unchanged, and is
treated as a success (skip), not an error. -/
theorem download_skips_existing_file (net : Network) (fs : FileSys)
    (url p₁ fn : String) (bytes : List Nat)
    (hfn : url_to_filename url = some fn)
    (hex : fs (pathJoin "PDFs" fn) = some bytes) :
    download_pdf net fs url p₁ = Except.ok ⟨fs, DlOutcome.skipped, false⟩ := by
  unfold download_pdf
  rw [hfn]
  simp only [check_file_exists, hex, Option.isSome_some, if_true]

theorem download_skips_existing_file_witness :
    download_pdf (fun _ => NetResponse.failure)
      (fun p => if p = "PDFs/x.pdf" then some [7] else none)
      "https://a.com/x.pdf" "arg" =
    Except.ok ⟨(fun p => if p = "PDFs/x.pdf" then some [7] else none),
      DlOutcome.skipped, false⟩ :=
  download_skips_existing_file _ _ _ _ "x.pdf" [7] (by decide) (by decide)

/-- C4: when the HTTP request for a URL raises a transport or HTTP-status
error (a `RequestException`: connection failure, or non-2xx status via
`raise_for_status`, or an interruption of the body stream), `download_pdf`
catches it and returns normally with a caught-failure outcome, and the
batch loop goes on to process the remaining URLs. -/
theorem download_error_caught_and_batch_continues (net : Network) (fs : FileSys)
    (url p₁ fn : String) (rest : List String)
    (hfn : url_to_filename url = some fn)
    (habs : fs (pathJoin "PDFs" fn) = none)
    (herr : net url = NetResponse.failure ∨
      ∃ cs, net url = NetResponse.stream cs true) :
    ∃ r : DlResult, download_pdf net fs url p₁ = Except.ok r ∧
      r.outcome = DlOutcome.failedCaught ∧
      processUrls net fs (url :: rest) = processUrls net r.fs rest := by
  rcases herr with h | ⟨cs, h⟩
  · have hr : download_pdf net fs url p₁ =
        Except.ok ⟨fs, DlOutcome.failedCaught, true⟩ := by
      unfold download_pdf
      rw [hfn]
      simp only [check_file_exists, habs, Option.isSome_none, Bool.false_eq_true,
        if_false]
      rw [h]
    have hr' : download_pdf net fs url fn =
        Except.ok ⟨fs, DlOutcome.failedCaught, true⟩ := hr
    refine ⟨⟨fs, DlOutcome.failedCaught, true⟩, hr, rfl, ?_⟩
    simp only [processUrls, hfn, hr']
  · have hr : download_pdf net fs url p₁ =
        Except.ok ⟨fun p => if p = pathJoin "PDFs" fn then some (writtenBytes cs)
          else fs p, DlOutcome.failedCaught, true⟩ := by
      unfold download_pdf
      rw [hfn]
      simp only [check_file_exists, habs, Option.isSome_none, Bool.false_eq_true,
        if_false]
      rw [h]
      rfl
    have hr' : download_pdf net fs url fn =
        Except.ok ⟨fun p => if p = pathJoin "PDFs" fn then some (writtenBytes cs)
          else fs p, DlOutcome.failedCaught, true⟩ := hr
    refine ⟨_, hr, rfl, ?_⟩
    simp only [processUrls, hfn, hr']

theorem download_error_caught_and_batch_continues_witness :
    ∃ r : DlResult,
      download_pdf (fun _ => NetResponse.failure) (fun _ => none)
        "https://a.com/x.pdf" "arg" = Except.ok r ∧
      r.outcome = DlOutcome.failedCaught ∧
      processUrls (fun _ => NetResponse.failure) (fun _ => none)
          ("https://a.com/x.pdf" :: ["https://b.com/y.pdf"]) =
        processUrls (fun _ => NetResponse.failure) r.fs ["https://b.com/y.pdf"] :=
  download_error_caught_and_batch_continues _ _ _ "arg" "x.pdf" _
    (by decide) rfl (Or.inl rfl)

/-- C9: the download is not atomic.  If the body stream is interrupted by a
network error after yielding its chunks, `download_pdf` catches the error
and returns normally, but the partially written file is left on disk at
`PDFs/<sanitized filename>`; any later call for the same URL then skips the
download (whatever the network would answer), because that partial file
exists. -/
theorem download_interrupted_leaves_partial_file_then_skips
    (net : Network) (fs : FileSys) (url p₁ p₂ fn : String) (cs : List (List Nat))
    (hfn : url_to_filename url = some fn)
    (habs : fs (pathJoin "PDFs" fn) = none)
    (hnet : net url = NetResponse.stream cs true)
    (hcs : cs ≠ []) :
    ∃ fs' : FileSys,
      download_pdf net fs url p₁ = Except.ok ⟨fs', DlOutcome.failedCaught, true⟩ ∧
      fs' (pathJoin "PDFs" fn) = some (writtenBytes cs) ∧
      ∀ net₂ : Network, download_pdf net₂ fs' url p₂ =
        Except.ok ⟨fs', DlOutcome.skipped, false⟩ := by
  refine ⟨fun p => if p = pathJoin "PDFs" fn then some (writtenBytes cs) else fs p,
    ?_, by simp, ?_⟩
  · unfold download_pdf
    rw [hfn]
    simp only [check_file_exists, habs, Option.isSome_none, Bool.false_eq_true, if_false]
    rw [hnet]
    rfl
  · intro net₂
    unfold download_pdf
    rw [hfn]
    simp only [check_file_exists, if_pos rfl, Option.isSome_some, if_true]

theorem download_interrupted_leaves_partial_file_then_skips_witness :
    ∃ fs' : FileSys,
      download_pdf (fun _ => NetResponse.stream [[1, 2]] true) (fun _ => none)
        "https://a.com/x.pdf" "a" =
        Except.ok ⟨fs', DlOutcome.failedCaught, true⟩ ∧
      fs' (pathJoin "PDFs" "x.pdf") = some (writtenBytes [[1, 2]]) ∧
      ∀ net₂ : Network, download_pdf net₂ fs' "https://a.com/x.pdf" "b" =
        Except.ok ⟨fs', DlOutcome.skipped, false⟩ :=
  download_interrupted_leaves_partial_file_then_skips _ _ _ "a" "b" "x.pdf" [[1, 2]]
    (by decide) rfl rfl (by decide)

/-- C10: `download_pdf` ignores its `local_file_path` parameter (line 71
reassigns it before first use): the call's result is definitionally
independent of that argument, and the only path whose contents the call can
touch — or whose prior existence it checks before skipping — is
`os.path.join("PDFs", url_to_filename(pdf_url))`. -/
theorem download_ignores_local_file_path_arg (net : Network) (fs : FileSys)
    (url p₁ p₂ : String) :
    download_pdf net fs url p₁ = download_pdf net fs url p₂ ∧
    ∀ fn r, url_to_filename url = some fn →
      download_pdf net fs url p₁ = Except.ok r →
      ((∀ q, q ≠ pathJoin "PDFs" fn → r.fs q = fs q) ∧
       (r.outcome = DlOutcome.skipped →
         r.fs = fs ∧ (fs (pathJoin "PDFs" fn)).isSome = true)) := by
  refine ⟨rfl, fun fn r hfn hok => ?_⟩
  unfold download_pdf at hok
  simp only [hfn] at hok
  by_cases hex : check_file_exists fs (pathJoin "PDFs" fn) = true
  · rw [if_pos hex] at hok
    cases hok
    exact ⟨fun _ _ => rfl, fun _ => ⟨rfl, hex⟩⟩
  · rw [if_neg hex] at hok
    cases hnet : net url with
    | failure =>
      rw [hnet] at hok
      cases hok
      exact ⟨fun _ _ => rfl, fun h => by cases h⟩
    | stream cs intr =>
      rw [hnet] at hok
      simp only [] at hok
      cases hok
      refine ⟨fun q hq => if_neg hq, fun h => ?_⟩
      cases intr <;> simp at h

theorem download_ignores_local_file_path_arg_witness :
    download_pdf (fun _ => NetResponse.failure) (fun _ => none)
        "https://a.com/x.pdf" "a" =
      download_pdf (fun _ => NetResponse.failure) (fun _ => none)
        "https://a.com/x.pdf" "b" ∧
    (⟨(fun _ => none : FileSys), DlOutcome.failedCaught, true⟩ : DlResult).fs
        "other" = none :=
  ⟨(download_ignores_local_file_path_arg (fun _ => NetResponse.failure)
      (fun _ => none) "https://a.com/x.pdf" "a" "b").1,
   ((download_ignores_local_file_path_arg (fun _ => NetResponse.failure)
      (fun _ => none) "https://a.com/x.pdf" "a" "b").2 "x.pdf"
      ⟨(fun _ => none : FileSys), DlOutcome.failedCaught, true⟩
      (by decide) rfl).1 "other" (by decide)⟩

/-- C5: `validate_pdf_file` leaves the file system untouched, and returns
`false` exactly when opening/parsing the file raises a structural error or
parsing succeeds with a page count of zero, `true` otherwise. -/
theorem validate_pdf_file_verdict (pdf : PdfEnv) (fs : FileSys) (fp : String) :
    (validate_pdf_file pdf fs fp).2 = fs ∧
    ((validate_pdf_file pdf fs fp).1 = false ↔
      (pdf fp = PdfParse.parseError ∨ pdf fp = PdfParse.parsed 0)) := by
  unfold validate_pdf_file
  cases h : pdf fp with
  | parseError => simp
  | parsed n =>
    by_cases hn : n = 0 <;> simp [hn]

/-! ## Concrete theorems about the sanitizer and extractor -/

/-- C8: the URL `https://example.com/Docs/Safety Sheet (2023).pdf` sanitizes
to exactly `safety_sheet__2023_.pdf` (spaces and parentheses replaced by
underscores, case lowered). -/
theorem url_to_filename_example_safety_sheet :
    url_to_filename "https://example.com/Docs/Safety Sheet (2023).pdf" =
      some "safety_sheet__2023_.pdf" := by
  decide

/-- C2 counterexample: for the URL `https://example.com/` (empty basename),
`url_to_filename` returns `_pdf`, which does not match `^[a-z0-9_-]+\.pdf$`
(the announced `.pdf` suffix is missing): `os.path.splitext(".pdf")` treats
the leading dot as part of the root and the dot is then replaced by `_`. -/
theorem url_to_filename_shape_counterexample :
    url_to_filename "https://example.com/" = some "_pdf" ∧
      isSafePdfName "_pdf" = false := by
  decide

/-- C6 counterexample: `url_to_filename` is not idempotent on
`https://example.com/`: the first application yields `_pdf`, and applying
the function to `_pdf` yields `_pdf.pdf ≠ _pdf`. -/
theorem url_to_filename_idempotence_counterexample :
    url_to_filename "https://example.com/" = some "_pdf" ∧
      url_to_filename "_pdf" = some "_pdf.pdf" ∧
      ("_pdf.pdf" : String) ≠ "_pdf" := by
  decide

/-- C7 counterexample: for the text consisting of the single URL
`https://x.pdf/file.txt`, whose path contains `.pdf` mid-path (not at the
end), extraction does produce a match: the truncated prefix
`https://x.pdf` (the `/` after `.pdf` is a word boundary). -/
theorem extract_midpath_counterexample :
    extract_pdf_urls "https://x.pdf/file.txt" = ["https://x.pdf"] := by
  decide

/-! ## Shape of `url_to_filename` outputs (amended C2, amended C6) -/

/-- A list each of whose elements `f` fixes is fixed by `List.map f`. -/
theorem map_fix {l : List Char} {f : Char → Char} (h : ∀ c ∈ l, f c = c) :
    l.map f = l := by
  conv_rhs => rw [← List.map_id l]
  exact List.map_congr_left h

/-- Lowering an ASCII uppercase code point lands in the safe class. -/
theorem safe_lower_of_upper (n : Nat) (h1 : 65 ≤ n) (h2 : n ≤ 90) :
    isSafeChar (Char.ofNat (n + 32)) = true := by
  interval_cases n <;> decide

/-- Safe characters are fixed by the character-class substitution. -/
theorem sanitizeChar_of_safe {c : Char} (h : isSafeChar c = true) :
    sanitizeChar c = c := by
  simp only [isSafeChar, decide_eq_true_eq] at h
  unfold sanitizeChar
  rw [if_pos (by omega)]

/-- Safe characters are fixed by lowering (none is an uppercase letter). -/
theorem pyLowerChar_of_safe {c : Char} (h : isSafeChar c = true) :
    pyLowerChar c = c := by
  simp only [isSafeChar, decide_eq_true_eq] at h
  unfold pyLowerChar
  rw [if_neg (by omega)]

/-- Substituting then lowering any character lands in the safe class. -/
theorem isSafeChar_sanLower (c : Char) :
    isSafeChar (pyLowerChar (sanitizeChar c)) = true := by
  unfold sanitizeChar
  by_cases hc : (65 ≤ c.toNat ∧ c.toNat ≤ 90) ∨ (97 ≤ c.toNat ∧ c.toNat ≤ 122) ∨
      (48 ≤ c.toNat ∧ c.toNat ≤ 57) ∨ c.toNat = 95 ∨ c.toNat = 45
  · rw [if_pos hc]
    by_cases hup : 65 ≤ c.toNat ∧ c.toNat ≤ 90
    · unfold pyLowerChar
      rw [if_pos hup]
      exact safe_lower_of_upper c.toNat hup.1 hup.2
    · rw [pyLowerChar_of_safe]
      all_goals simp only [isSafeChar, decide_eq_true_eq]; omega
  · rw [if_neg hc]
    decide

/-- `os.path.splitext` on a name that ends in `.pdf`: if the stem consists
only of dots (possibly empty), the whole name is the root and the extension
is empty; otherwise it splits into the stem and `.pdf`. -/
theorem splitext_stem_pdf (stem : List Char) :
    splitext (stem ++ pdfExt) =
      if stem.all (fun c => c == '.') then (stem ++ pdfExt, ([] : List Char))
      else (stem, pdfExt) := by
  have hrev : (stem ++ pdfExt).reverse = ['f', 'd', 'p', '.'] ++ stem.reverse := by
    simp [pdfExt]
  have htw : List.takeWhile (fun c => c != '.') (['f', 'd', 'p', '.'] ++ stem.reverse)
      = ['f', 'd', 'p'] := by
    simp [List.takeWhile_cons]
  have hlen : (stem ++ pdfExt).length = stem.length + 4 := by simp [pdfExt]
  have hsub : stem.length + 4 - 3 - 1 = stem.length := by omega
  unfold splitext
  rw [hrev, htw, hlen]
  simp only [List.length_cons, List.length_nil]
  rw [if_neg (by omega), hsub, List.take_left, List.drop_left]

/-- Substitution turns an all-dots stem into all underscores. -/
theorem map_sanitize_dots {stem : List Char}
    (h : stem.all (fun c => c == '.') = true) :
    stem.map sanitizeChar = List.replicate stem.length '_' := by
  induction stem with
  | nil => rfl
  | cons c cs ih =>
    simp only [List.all_cons, Bool.and_eq_true, beq_iff_eq] at h
    obtain ⟨hc, hcs⟩ := h
    subst hc
    simp only [List.map_cons, List.length_cons, List.replicate_succ]
    rw [ih (by simpa using hcs)]
    rfl

/-- C2 (amended): every normal result of `url_to_filename` either matches
`^[a-z0-9_-]+\.pdf$`, or — when the stem of the forced-`.pdf` filename
consists only of dots (e.g. an empty basename) — consists of one or more
underscores followed by `pdf`, with no dot at all. -/
theorem url_to_filename_shape (u s : String) (h : url_to_filename u = some s) :
    isSafePdfName s = true ∨
      ∃ k, 1 ≤ k ∧ s.data = List.replicate k '_' ++ ['p', 'd', 'f'] := by
  unfold url_to_filename at h
  cases hp : urlparse_path u with
  | none => rw [hp] at h; cases h
  | some p =>
    rw [hp] at h
    simp only [] at h
    -- the (possibly suffixed) filename always decomposes as `stem ++ pdfExt`
    obtain ⟨stem, hstem⟩ :
        ∃ stem, (if pdfExt.isSuffixOf (basename p) then basename p
          else basename p ++ pdfExt) = stem ++ pdfExt := by
      by_cases hsuf : pdfExt.isSuffixOf (basename p)
      · obtain ⟨t, ht⟩ := List.isSuffixOf_iff_suffix.mp hsuf
        exact ⟨t, by rw [if_pos hsuf, ← ht]⟩
      · exact ⟨basename p, by rw [if_neg hsuf]⟩
    rw [hstem] at h
    rw [splitext_stem_pdf] at h
    by_cases hdots : stem.all (fun c => c == '.') = true
    · right
      rw [if_pos hdots] at h
      cases h
      refine ⟨stem.length + 1, by omega, ?_⟩
      show ((stem ++ pdfExt).map sanitizeChar ++ []).map pyLowerChar = _
      rw [List.append_nil, List.map_append, map_sanitize_dots hdots]
      have hext : pdfExt.map sanitizeChar = ['_', 'p', 'd', 'f'] := by decide
      rw [hext, List.map_append, List.map_replicate]
      have h2 : pyLowerChar '_' = '_' := by decide
      have h3 : (['_', 'p', 'd', 'f'].map pyLowerChar) = '_' :: ['p', 'd', 'f'] := by
        decide
      rw [h2, h3, List.replicate_succ' stem.length '_', List.append_assoc]
      rfl
    · left
      rw [if_neg hdots] at h
      cases h
      have hne : stem ≠ [] := by
        intro he
        subst he
        simp at hdots
      unfold isSafePdfName
      simp only [Bool.and_eq_true, decide_eq_true_eq]
      show let l := ((stem.map sanitizeChar ++ pdfExt).map pyLowerChar); _
      have hform : (stem.map sanitizeChar ++ pdfExt).map pyLowerChar =
          stem.map (fun c => pyLowerChar (sanitizeChar c)) ++ pdfExt := by
        rw [List.map_append, List.map_map]
        have : pdfExt.map pyLowerChar = pdfExt := by decide
        rw [this]
        rfl
      simp only [hform]
      have hlen : (stem.map (fun c => pyLowerChar (sanitizeChar c)) ++ pdfExt).length
          - 4 = stem.length := by
        simp [pdfExt]
      have hmaplen : stem.length =
          (stem.map (fun c => pyLowerChar (sanitizeChar c))).length := by simp
      rw [hlen, hmaplen, List.take_left, List.drop_left]
      refine ⟨⟨by simpa using hne, ?_⟩, rfl⟩
      rw [List.all_map]
      rw [List.all_eq_true]
      intro c _
      exact isSafeChar_sanLower c

theorem url_to_filename_shape_witness :
    isSafePdfName "x.pdf" = true ∨
      ∃ k, 1 ≤ k ∧ ("x.pdf" : String).data = List.replicate k '_' ++ ['p', 'd', 'f'] :=
  url_to_filename_shape "https://a.com/x.pdf" "x.pdf" (by decide)

/-- The scheme-stripping step fixes any string without `:`. -/
theorem stripScheme_eq_self {l : List Char} (h : ∀ c ∈ l, (c != ':') = true) :
    stripScheme l = l := by
  have hpre : l.takeWhile (fun c => c != ':') = l := List.takeWhile_eq_self_iff.mpr h
  cases l with
  | nil => rfl
  | cons c cs =>
    unfold stripScheme
    simp only [hpre]
    rw [if_neg]
    intro hcontra
    exact absurd hcontra.1 (lt_irrefl _)

/-- A safe character, or a character of the literal `.pdf`, is none of the
delimiter characters the URL-parsing pipeline looks for. -/
theorem safe_not_delim {c : Char} (h : isSafeChar c = true ∨ c ∈ pdfExt) :
    c ≠ '\t' ∧ c ≠ '\r' ∧ c ≠ '\n' ∧ c ≠ ':' ∧ c ≠ '/' ∧ c ≠ '#' ∧ c ≠ '?' ∧
      c ≠ ';' := by
  rcases h with h | h
  · simp only [isSafeChar, decide_eq_true_eq] at h
    refine ⟨?_, ?_, ?_, ?_, ?_, ?_, ?_, ?_⟩ <;>
      · intro hc
        subst hc
        revert h
        decide
  · fin_cases h <;> decide

/-- The structural decomposition behind `isSafePdfName`. -/
theorem isSafePdfName_decomp {v : String} (h : isSafePdfName v = true) :
    ∃ stem, v.data = stem ++ pdfExt ∧ stem ≠ [] ∧ stem.all isSafeChar = true := by
  unfold isSafePdfName at h
  simp only [Bool.and_eq_true, decide_eq_true_eq] at h
  obtain ⟨⟨h1, h2⟩, h3⟩ := h
  refine ⟨v.data.take (v.data.length - 4), ?_, h1, h2⟩
  conv_lhs => rw [← List.take_append_drop (v.data.length - 4) v.data]
  rw [h3]

/-- C6 (amended): `url_to_filename` is a pure function (determinism is
definitional), and it is idempotent on every input whose output matches
`^[a-z0-9_-]+\.pdf$`: such an output is a fixed point of the function. -/
theorem url_to_filename_idempotent_on_safe (u v : String)
    (hu : url_to_filename u = some v) (hv : isSafePdfName v = true) :
    url_to_filename v = some v := by
  clear hu
  obtain ⟨stem, hdecomp, hne, hsafe⟩ := isSafePdfName_decomp hv
  have hsafe' : ∀ c ∈ stem, isSafeChar c = true := List.all_eq_true.mp hsafe
  have hmem : ∀ c ∈ v.data, isSafeChar c = true ∨ c ∈ pdfExt := by
    intro c hc
    rw [hdecomp] at hc
    rcases List.mem_append.mp hc with hc | hc
    · exact Or.inl (hsafe' c hc)
    · exact Or.inr hc
  -- Step 1: the tab/CR/LF filter fixes v
  have hfilter : v.data.filter
      (fun c => decide (c ≠ '\t' ∧ c ≠ '\r' ∧ c ≠ '\n')) = v.data := by
    rw [List.filter_eq_self]
    intro c hc
    obtain ⟨h1, h2, h3, _⟩ := safe_not_delim (hmem c hc)
    exact decide_eq_true ⟨h1, h2, h3⟩
  -- Step 2: no scheme
  have hscheme : stripScheme v.data = v.data := by
    apply stripScheme_eq_self
    intro c hc
    obtain ⟨_, _, _, h4, _⟩ := safe_not_delim (hmem c hc)
    simpa using h4
  -- Step 3: no netloc
  have hnetloc : v.data.take 2 ≠ ['/', '/'] := by
    cases hd : v.data with
    | nil => simp [hd]
    | cons c cs =>
      have hc : c ∈ v.data := by rw [hd]; exact List.mem_cons_self ..
      obtain ⟨_, _, _, _, h5, _⟩ := safe_not_delim (hmem c hc)
      intro hcontra
      have hhead : c = '/' := by
        have := congrArg List.head? hcontra
        simpa using this
      exact h5 hhead
  -- Step 4: no fragment, no query
  have hfrag : v.data.takeWhile (fun c => c != '#') = v.data := by
    apply List.takeWhile_eq_self_iff.mpr
    intro c hc
    obtain ⟨_, _, _, _, _, h6, _⟩ := safe_not_delim (hmem c hc)
    simpa using h6
  have hquery : v.data.takeWhile (fun c => c != '?') = v.data := by
    apply List.takeWhile_eq_self_iff.mpr
    intro c hc
    obtain ⟨_, _, _, _, _, _, h7, _⟩ := safe_not_delim (hmem c hc)
    simpa using h7
  -- Step 5: no params
  have hparams : splitParams v.data = v.data := by
    have hcon : v.data.contains ';' = false := by
      by_contra hcon
      have hmem' : (';' : Char) ∈ v.data := by
        have := Bool.of_not_eq_false hcon
        exact List.elem_iff.mp this
      obtain ⟨_, _, _, _, _, _, _, h8⟩ := safe_not_delim (hmem ';' hmem')
      exact h8 rfl
    unfold splitParams
    rw [hcon]
    rfl
  -- Step 6: urlparse returns the whole string as path
  have hpath : urlparse_path v = some v.data := by
    unfold urlparse_path
    simp only [hfilter, hscheme, if_neg hnetloc, hfrag, hquery, hparams]
  -- Step 7: basename is the identity (no slash)
  have hbase : basename v.data = v.data := by
    unfold basename
    have : v.data.reverse.takeWhile (fun c => c != '/') = v.data.reverse := by
      apply List.takeWhile_eq_self_iff.mpr
      intro c hc
      obtain ⟨_, _, _, _, h5, _⟩ := safe_not_delim (hmem c (List.mem_reverse.mp hc))
      simpa using h5
    rw [this, List.reverse_reverse]
  -- Step 8: the `.pdf` suffix is present
  have hsuf : pdfExt.isSuffixOf v.data = true := by
    rw [List.isSuffixOf_iff_suffix]
    exact ⟨stem, hdecomp.symm⟩
  -- Step 9: splitext splits at the final dot (the stem is not all dots)
  have hnotdots : ¬ stem.all (fun c => c == '.') = true := by
    intro hall
    cases stem with
    | nil => exact hne rfl
    | cons c cs =>
      have hc : isSafeChar c = true := hsafe' c (List.mem_cons_self ..)
      have : (c == '.') = true := (List.all_eq_true.mp hall) c (List.mem_cons_self ..)
      rw [beq_iff_eq] at this
      subst this
      exact absurd hc (by decide)
  -- Step 10: substitution and lowering fix the safe name
  have hsan : stem.map sanitizeChar = stem :=
    map_fix fun c hc => sanitizeChar_of_safe (hsafe' c hc)
  have hlow : (stem ++ pdfExt).map pyLowerChar = stem ++ pdfExt := by
    rw [List.map_append]
    have h1 : stem.map pyLowerChar = stem :=
      map_fix fun c hc => pyLowerChar_of_safe (hsafe' c hc)
    have h2 : pdfExt.map pyLowerChar = pdfExt := by decide
    rw [h1, h2]
  unfold url_to_filename
  rw [hpath]
  simp only [hbase, hsuf, if_true]
  rw [hdecomp, splitext_stem_pdf, if_neg hnotdots]
  show some (⟨(stem.map sanitizeChar ++ pdfExt).map pyLowerChar⟩ : String) = some v
  rw [hsan, hlow, ← hdecomp]

theorem url_to_filename_idempotent_on_safe_witness :
    url_to_filename "x.pdf" = some "x.pdf" :=
  url_to_filename_idempotent_on_safe "https://a.com/x.pdf" "x.pdf"
    (by decide) (by decide)

/-! ## Soundness, minimality and completeness of the anchored matcher -/

/-- A scheme prefix is never empty. -/
theorem SchemeStr_ne_nil {s : List Char} (h : SchemeStr s) : s ≠ [] := by
  rcases h with h | h <;> subst h <;> decide

/-- The pattern has no match in the empty text. -/
theorem MatchHead_nil (n : Nat) : ¬ MatchHead [] n := by
  rintro ⟨sch, body, rest, hsch, -, -, heq, -, -⟩
  rcases hsch with h | h <;> subst h <;> simp [schemeHttp, schemeHttps] at heq

/-- Any match of the pattern has positive length. -/
theorem MatchHead_pos {l : List Char} {n : Nat} (h : MatchHead l n) : 1 ≤ n := by
  obtain ⟨sch, body, rest, -, -, -, -, -, hn⟩ := h
  omega

/-- Two scheme prefixes of one and the same text coincide (the fifth
character distinguishes `http://` from `https://`). -/
theorem scheme_unique {s₁ s₂ a b : List Char} (h₁ : SchemeStr s₁)
    (h₂ : SchemeStr s₂) (h : s₁ ++ a = s₂ ++ b) : s₁ = s₂ ∧ a = b := by
  rcases h₁ with h₁ | h₁ <;> rcases h₂ with h₂ | h₂ <;> subst h₁ <;> subst h₂
  · exact ⟨rfl, List.append_cancel_left h⟩
  · simp [schemeHttp, schemeHttps] at h
  · simp [schemeHttp, schemeHttps] at h
  · exact ⟨rfl, List.append_cancel_left h⟩

/-- Soundness of the scheme matcher. -/
theorem matchScheme_sound {l p r : List Char} (h : matchScheme l = some (p, r)) :
    SchemeStr p ∧ l = p ++ r := by
  unfold matchScheme at h
  by_cases h8 : l.take 8 = schemeHttps
  · rw [if_pos h8] at h
    simp only [Option.some.injEq, Prod.mk.injEq] at h
    obtain ⟨rfl, rfl⟩ := h
    refine ⟨Or.inr rfl, ?_⟩
    conv_lhs => rw [← List.take_append_drop 8 l]
    rw [h8]
  · rw [if_neg h8] at h
    by_cases h7 : l.take 7 = schemeHttp
    · rw [if_pos h7] at h
      simp only [Option.some.injEq, Prod.mk.injEq] at h
      obtain ⟨rfl, rfl⟩ := h
      refine ⟨Or.inl rfl, ?_⟩
      conv_lhs => rw [← List.take_append_drop 7 l]
      rw [h7]
    · rw [if_neg h7] at h
      cases h

/-- Completeness of the scheme matcher: on `none`, no scheme prefix exists. -/
theorem matchScheme_none {l : List Char} (h : matchScheme l = none) :
    ∀ sch r, SchemeStr sch → l ≠ sch ++ r := by
  intro sch r hsch heq
  unfold matchScheme at h
  rcases hsch with h' | h' <;> subst h' <;> subst heq
  · have h7 : (schemeHttp ++ r).take 7 = schemeHttp := by
      have : (7 : Nat) = schemeHttp.length := rfl
      rw [this, List.take_left]
    by_cases h8 : (schemeHttp ++ r).take 8 = schemeHttps
    · rw [if_pos h8] at h; cases h
    · rw [if_neg h8, if_pos h7] at h; cases h
  · have h8 : (schemeHttps ++ r).take 8 = schemeHttps := by
      have : (8 : Nat) = schemeHttps.length := rfl
      rw [this, List.take_left]
    rw [if_pos h8] at h
    cases h

/-- Soundness of the body matcher: a successful match decomposes as a
non-empty non-whitespace run, the literal `.pdf`, and a boundary-satisfying
remainder. -/
theorem matchBodyAux_sound : ∀ {l m r : List Char}, matchBodyAux l = some (m, r) →
    ∃ body, body ≠ [] ∧ noWhitespace body = true ∧ m = body ++ pdfExt ∧
      l = m ++ r ∧ boundaryAfter r = true := by
  intro l
  induction l with
  | nil => intro m r h; cases h
  | cons c rest ih =>
    intro m r h
    unfold matchBodyAux at h
    by_cases hsp : pyIsSpace c = true
    · rw [if_pos hsp] at h; cases h
    · rw [if_neg hsp] at h
      by_cases hpdf : rest.take 4 = pdfExt ∧ boundaryAfter (rest.drop 4) = true
      · rw [if_pos hpdf] at h
        simp only [Option.some.injEq, Prod.mk.injEq] at h
        obtain ⟨rfl, rfl⟩ := h
        refine ⟨[c], by simp, ?_, rfl, ?_, hpdf.2⟩
        · simp [noWhitespace, Bool.not_eq_true] at hsp ⊢
          exact hsp
        · have : rest = pdfExt ++ rest.drop 4 := by
            conv_lhs => rw [← List.take_append_drop 4 rest]
            rw [hpdf.1]
          rw [List.cons_append]
          exact congrArg (c :: ·) this
      · rw [if_neg hpdf] at h
        cases hrec : matchBodyAux rest with
        | none => rw [hrec] at h; cases h
        | some p =>
          obtain ⟨m', r'⟩ := p
          rw [hrec] at h
          simp only [Option.some.injEq, Prod.mk.injEq] at h
          obtain ⟨rfl, rfl⟩ := h
          obtain ⟨body, hbne, hbw, hbm, hbl, hbb⟩ := ih hrec
          refine ⟨c :: body, by simp, ?_, ?_, ?_, hbb⟩
          · simp only [noWhitespace, List.all_cons, Bool.and_eq_true] at hbw ⊢
            exact ⟨by simp [Bool.not_eq_true] at hsp ⊢; exact hsp, hbw⟩
          · rw [hbm, List.cons_append]
          · rw [List.cons_append]
            exact congrArg (c :: ·) hbl

/-- Minimality of the body matcher: the lazy `+?` yields the shortest match
among all decompositions anchored at the same position. -/
theorem matchBodyAux_minimal : ∀ {l m r : List Char},
    matchBodyAux l = some (m, r) →
    ∀ body rest', body ≠ [] → noWhitespace body = true →
      l = body ++ pdfExt ++ rest' → boundaryAfter rest' = true →
      m.length ≤ body.length + 4 := by
  intro l
  induction l with
  | nil => intro m r h; cases h
  | cons c rest ih =>
    intro m r h body rest' hbne hbw hdec hbd
    obtain ⟨body2, rfl⟩ : ∃ body2, body = c :: body2 := by
      cases body with
      | nil => exact absurd rfl hbne
      | cons b bs =>
        have hb : b = c := by
          have := congrArg List.head? hdec
          simpa using this.symm
        exact ⟨bs, by rw [hb]⟩
    have hrest : rest = body2 ++ pdfExt ++ rest' := by
      have := congrArg List.tail hdec
      simpa using this
    have hsp : ¬ pyIsSpace c = true := by
      simp only [noWhitespace, List.all_cons, Bool.and_eq_true, Bool.not_eq_true'] at hbw
      simp [hbw.1]
    unfold matchBodyAux at h
    rw [if_neg hsp] at h
    by_cases hpdf : rest.take 4 = pdfExt ∧ boundaryAfter (rest.drop 4) = true
    · rw [if_pos hpdf] at h
      simp only [Option.some.injEq, Prod.mk.injEq] at h
      obtain ⟨rfl, rfl⟩ := h
      simp [pdfExt]
    · rw [if_neg hpdf] at h
      have hb2 : body2 ≠ [] := by
        intro he
        subst he
        simp only [List.nil_append] at hrest
        apply hpdf
        constructor
        · rw [hrest]
          have : (4 : Nat) = pdfExt.length := rfl
          rw [this, List.take_left]
        · rw [hrest]
          have : (4 : Nat) = pdfExt.length := rfl
          rw [this, List.drop_left]
          exact hbd
      cases hrec : matchBodyAux rest with
      | none => rw [hrec] at h; cases h
      | some p =>
        obtain ⟨m', r'⟩ := p
        rw [hrec] at h
        simp only [Option.some.injEq, Prod.mk.injEq] at h
        obtain ⟨rfl, rfl⟩ := h
        have hbw2 : noWhitespace body2 = true := by
          simp only [noWhitespace, List.all_cons, Bool.and_eq_true] at hbw
          exact hbw.2
        have := ih hrec body2 rest' hb2 hbw2 hrest hbd
        simp only [List.length_cons]
        omega

/-- Completeness of the body matcher: on `none`, no decomposition exists. -/
theorem matchBodyAux_complete : ∀ {l : List Char}, matchBodyAux l = none →
    ∀ body rest', body ≠ [] → noWhitespace body = true →
      l = body ++ pdfExt ++ rest' → boundaryAfter rest' = true → False := by
  intro l
  induction l with
  | nil =>
    intro _ body rest' hbne _ hdec _
    cases body with
    | nil => exact hbne rfl
    | cons b bs => simp at hdec
  | cons c rest ih =>
    intro h body rest' hbne hbw hdec hbd
    obtain ⟨body2, rfl⟩ : ∃ body2, body = c :: body2 := by
      cases body with
      | nil => exact absurd rfl hbne
      | cons b bs =>
        have hb : b = c := by
          have := congrArg List.head? hdec
          simpa using this.symm
        exact ⟨bs, by rw [hb]⟩
    have hrest : rest = body2 ++ pdfExt ++ rest' := by
      have := congrArg List.tail hdec
      simpa using this
    have hsp : ¬ pyIsSpace c = true := by
      simp only [noWhitespace, List.all_cons, Bool.and_eq_true, Bool.not_eq_true'] at hbw
      simp [hbw.1]
    unfold matchBodyAux at h
    rw [if_neg hsp] at h
    by_cases hpdf : rest.take 4 = pdfExt ∧ boundaryAfter (rest.drop 4) = true
    · rw [if_pos hpdf] at h; cases h
    · rw [if_neg hpdf] at h
      have hb2 : body2 ≠ [] := by
        intro he
        subst he
        simp only [List.nil_append] at hrest
        apply hpdf
        constructor
        · rw [hrest]
          have : (4 : Nat) = pdfExt.length := rfl
          rw [this, List.take_left]
        · rw [hrest]
          have : (4 : Nat) = pdfExt.length := rfl
          rw [this, List.drop_left]
          exact hbd
      cases hrec : matchBodyAux rest with
      | none =>
        have hbw2 : noWhitespace body2 = true := by
          simp only [noWhitespace, List.all_cons, Bool.and_eq_true] at hbw
          exact hbw.2
        exact ih hrec body2 rest' hb2 hbw2 hrest hbd
      | some p =>
        obtain ⟨m', r'⟩ := p
        rw [hrec] at h
        cases h

/-- Soundness plus minimality of the anchored matcher: a successful
`tryMatchAt` yields a shape-correct decomposition of its match, consumes a
prefix of the text, and its match is shortest among all matches anchored
there. -/
theorem tryMatchAt_sound {l m r : List Char} (h : tryMatchAt l = some (m, r)) :
    (∃ sch body, SchemeStr sch ∧ body ≠ [] ∧ noWhitespace body = true ∧
      m = sch ++ (body ++ pdfExt)) ∧
    l = m ++ r ∧ boundaryAfter r = true ∧
    (∀ n', MatchHead l n' → m.length ≤ n') := by
  unfold tryMatchAt at h
  cases hsc : matchScheme l with
  | none => rw [hsc] at h; cases h
  | some q =>
    obtain ⟨p, r₀⟩ := q
    simp only [hsc] at h
    cases hb : matchBodyAux r₀ with
    | none => simp only [hb] at h; cases h
    | some q' =>
      obtain ⟨mb, rest⟩ := q'
      simp only [hb, Option.some.injEq, Prod.mk.injEq] at h
      obtain ⟨rfl, rfl⟩ := h
      obtain ⟨hschp, hlp⟩ := matchScheme_sound hsc
      obtain ⟨body, hbne, hbw, hbm, hbl, hbb⟩ := matchBodyAux_sound hb
      refine ⟨⟨p, body, hschp, hbne, hbw, by rw [hbm]⟩, ?_, hbb, ?_⟩
      · rw [hlp, hbl, List.append_assoc]
      · intro n' hm'
        obtain ⟨sch', body', rest', hsch', hbne', hbw', hdec', hbd', hn'⟩ := hm'
        have hps : p ++ r₀ = sch' ++ (body' ++ (pdfExt ++ rest')) := by
          rw [← hlp, hdec']
          simp [List.append_assoc]
        obtain ⟨hpe, hre⟩ := scheme_unique hschp hsch' hps
        have hr₀ : r₀ = body' ++ pdfExt ++ rest' := by
          rw [hre, List.append_assoc]
        have hmin := matchBodyAux_minimal hb body' rest' hbne' hbw' hr₀ hbd'
        have hlenp : p.length = sch'.length := by rw [hpe]
        simp only [List.length_append]
        omega

/-- From a successful anchored match, the pattern matches at the head. -/
theorem tryMatchAt_MatchHead {l m r : List Char} (h : tryMatchAt l = some (m, r)) :
    MatchHead l m.length := by
  obtain ⟨⟨sch, body, hsch, hbne, hbw, hm⟩, hl, hb, -⟩ := tryMatchAt_sound h
  refine ⟨sch, body, r, hsch, hbne, hbw, ?_, hb, ?_⟩
  · rw [hl, hm]
    simp [List.append_assoc]
  · rw [hm]
    simp [List.length_append, pdfExt]
    omega

/-- Completeness of the anchored matcher: on `none`, the pattern has no
match anchored at the head at all. -/
theorem tryMatchAt_none {l : List Char} (h : tryMatchAt l = none) :
    ∀ n, ¬ MatchHead l n := by
  intro n hm
  obtain ⟨sch, body, rest, hsch, hbne, hbw, hdec, hbd, -⟩ := hm
  unfold tryMatchAt at h
  cases hsc : matchScheme l with
  | none => exact matchScheme_none hsc sch (body ++ pdfExt ++ rest) hsch (by
      rw [hdec]; simp [List.append_assoc])
  | some q =>
    obtain ⟨p, r₀⟩ := q
    simp only [hsc] at h
    obtain ⟨hschp, hlp⟩ := matchScheme_sound hsc
    have hps : p ++ r₀ = sch ++ (body ++ (pdfExt ++ rest)) := by
      rw [← hlp, hdec]
      simp [List.append_assoc]
    obtain ⟨hpe, hre⟩ := scheme_unique hschp hsch hps
    have hr₀ : r₀ = body ++ pdfExt ++ rest := by
      rw [hre, List.append_assoc]
    cases hb : matchBodyAux r₀ with
    | none => exact matchBodyAux_complete hb body rest hbne hbw hr₀ hbd
    | some q' =>
      obtain ⟨mb, rest'⟩ := q'
      simp only [hb] at h
      cases h

/-! ## `extract_pdf_urls` realizes the declarative findall description -/

/-- If no match is anchored at position `i`, the findall description is
insensitive to starting at `i` or at `i + 1`. -/
theorem FindAllRel_weaken {t : List Char} {i : Nat} {xs : List (List Char)}
    (hno : ∀ n, ¬ MatchHead (t.drop i) n)
    (h : FindAllRel t (i + 1) xs) : FindAllRel t i xs := by
  cases h with
  | nil _ hnone =>
    refine FindAllRel.nil i fun j n hij => ?_
    rcases Nat.eq_or_lt_of_le hij with rfl | hlt
    · exact hno n
    · exact hnone j n hlt
  | cons _ j n s rest hij hm hfirst hmin hs hrest =>
    refine FindAllRel.cons i j n s rest (by omega) hm ?_ hmin hs hrest
    intro j' n' hij' hj'
    rcases Nat.eq_or_lt_of_le hij' with rfl | hlt
    · exact hno n'
    · exact hfirst j' n' hlt hj'

/-- The fuel-indexed scan satisfies the declarative findall description on
every suffix, provided the fuel covers the suffix length. -/
theorem findAllAux_spec : ∀ (fuel : Nat) (l t : List Char) (i : Nat),
    t.drop i = l → l.length ≤ fuel → FindAllRel t i (findAllAux fuel l) := by
  intro fuel
  induction fuel with
  | zero =>
    intro l t i hdrop hlen
    have hl : l = [] := List.eq_nil_of_length_eq_zero (Nat.le_zero.mp hlen)
    subst hl
    refine FindAllRel.nil i fun j n hij => ?_
    have hj : t.drop j = [] := by
      have h1 : (t.drop i).drop (j - i) = t.drop (i + (j - i)) := List.drop_drop ..
      have h2 : i + (j - i) = j := by omega
      rw [hdrop] at h1
      rw [h2] at h1
      simpa using h1.symm
    rw [hj]
    exact MatchHead_nil n
  | succ fuel ih =>
    intro l t i hdrop hlen
    cases l with
    | nil =>
      refine FindAllRel.nil i fun j n hij => ?_
      have hj : t.drop j = [] := by
        have h1 : (t.drop i).drop (j - i) = t.drop (i + (j - i)) := List.drop_drop ..
        have h2 : i + (j - i) = j := by omega
        rw [hdrop] at h1
        rw [h2] at h1
        simpa using h1.symm
      rw [hj]
      exact MatchHead_nil n
    | cons c rest =>
      cases hm : tryMatchAt (c :: rest) with
      | some q =>
        obtain ⟨m, r⟩ := q
        have hunf : findAllAux (fuel + 1) (c :: rest) = m :: findAllAux fuel r := by
          simp only [findAllAux, hm]
        rw [hunf]
        obtain ⟨-, hlr, -, hmin⟩ := tryMatchAt_sound hm
        have hmh : MatchHead (c :: rest) m.length := tryMatchAt_MatchHead hm
        have hmpos : 1 ≤ m.length := MatchHead_pos hmh
        refine FindAllRel.cons i i m.length m _ (le_refl i) ?_ ?_ ?_ ?_ ?_
        · rw [hdrop]; exact hmh
        · intro j' n' hij' hj'
          omega
        · rw [hdrop]; exact hmin
        · rw [hdrop, hlr]
          rw [List.take_left]
        · have hdrop' : t.drop (i + m.length) = r := by
            have h1 : (t.drop i).drop m.length = t.drop (i + m.length) :=
              List.drop_drop ..
            rw [hdrop, hlr] at h1
            rw [← h1, List.drop_left]
          have hlen' : r.length ≤ fuel := by
            have := congrArg List.length hlr
            simp only [List.length_cons, List.length_append] at this hlen
            omega
          exact ih r t (i + m.length) hdrop' hlen'
      | none =>
        have hunf : findAllAux (fuel + 1) (c :: rest) = findAllAux fuel rest := by
          simp only [findAllAux, hm]
        rw [hunf]
        have hnomatch : ∀ n, ¬ MatchHead (t.drop i) n := by
          rw [hdrop]
          exact tryMatchAt_none hm
        refine FindAllRel_weaken hnomatch (ih rest t (i + 1) ?_ ?_)
        · have h1 : (t.drop i).drop 1 = t.drop (i + 1) := List.drop_drop ..
          rw [hdrop] at h1
          simpa using h1.symm
        · simp only [List.length_cons] at hlen
          omega

/-- C1: on every input text, `extract_pdf_urls` returns exactly the
non-overlapping matches of `https?://` followed by non-whitespace
characters ending in `.pdf` at a word boundary, scanned in order of first
appearance (first matching position, shortest — lazy — match there,
resuming after each match), duplicates retained. -/
theorem extract_pdf_urls_findall (t : String) :
    FindAllRel t.data 0 ((extract_pdf_urls t).map String.data) := by
  have hmap : ∀ xs : List (List Char),
      (xs.map fun l => (⟨l⟩ : String)).map String.data = xs := by
    intro xs
    induction xs with
    | nil => rfl
    | cons a as iha =>
      simp only [List.map_cons, iha]
  unfold extract_pdf_urls
  rw [hmap]
  exact findAllAux_spec t.data.length t.data t.data 0 rfl (le_refl _)

/-- C7 (amended): every string returned by `extract_pdf_urls` ends in the
literal `.pdf` (with a non-empty part before it); in particular a URL whose
`.pdf` occurs mid-path is never returned in full — though a truncated
prefix of it ending at that `.pdf` can be (see the counterexample). -/
theorem extract_pdf_urls_end_pdf (t s : String) (h : s ∈ extract_pdf_urls t) :
    ∃ pre, s.data = pre ++ pdfExt ∧ pre ≠ [] := by
  have main : ∀ (fuel : Nat) (l m : List Char), m ∈ findAllAux fuel l →
      ∃ pre, m = pre ++ pdfExt ∧ pre ≠ [] := by
    intro fuel
    induction fuel with
    | zero =>
      intro l m hm
      rw [show findAllAux 0 l = [] from by simp only [findAllAux]] at hm
      cases hm
    | succ fuel ih =>
      intro l m hm
      cases l with
      | nil => cases hm
      | cons c rest =>
        cases htm : tryMatchAt (c :: rest) with
        | some q =>
          obtain ⟨m₀, r⟩ := q
          rw [show findAllAux (fuel + 1) (c :: rest) = m₀ :: findAllAux fuel r from
            by simp only [findAllAux, htm]] at hm
          rcases List.mem_cons.mp hm with rfl | hm'
          · obtain ⟨⟨sch, body, hsch, hbne, -, hm0⟩, -, -, -⟩ := tryMatchAt_sound htm
            refine ⟨sch ++ body, ?_, ?_⟩
            · rw [hm0, List.append_assoc]
            · intro he
              exact SchemeStr_ne_nil hsch (List.append_eq_nil.mp he).1
          · exact ih r m hm'
        | none =>
          rw [show findAllAux (fuel + 1) (c :: rest) = findAllAux fuel rest from
            by simp only [findAllAux, htm]] at hm
          exact ih rest m hm
  unfold extract_pdf_urls at h
  obtain ⟨m, hmem, rfl⟩ := List.mem_map.mp h
  exact main t.data.length t.data m hmem

theorem extract_pdf_urls_end_pdf_witness :
    ∃ pre, ("https://a.com/b.pdf" : String).data = pre ++ pdfExt ∧ pre ≠ [] :=
  extract_pdf_urls_end_pdf "see https://a.com/b.pdf ok" "https://a.com/b.pdf"
    (by decide)

end CloroxPdf
